import Mathlib

/-!
Verification of `raiden_mps/crypto.py` (microraiden).

The module's pure logic — hex formatting, the Solidity-style `sha3` argument
encoder, signature byte plumbing, address normalization and derivation — is
embedded directly.  Python byte strings are `List Nat` (each entry a byte
value), Python `str` is Lean `String` (operated on through `String.data`),
and an operation that can raise a Python exception returns `Option`
(`none` = an exception was raised; the comments name the exception).

The external cryptographic primitives (coincurve's secp256k1 signing and
recovery, eth_utils' `keccak`) are abstracted as the fields of a `Crypto`
structure; theorems about signing round trips take the standard contracts of
those primitives as hypotheses, and a small executable `toyCrypto` instance
discharges them in the concrete witnesses.

Helpers imported by the source from `eth_utils` (`decode_hex`, `encode_hex`,
`remove_0x_prefix`, `to_normalized_address`) are not part of this repository;
they are modelled here from that library's documented behaviour, each with a
doc comment saying so.
-/

set_option maxRecDepth 100000

namespace Microraiden

/-- Lowercase hex digit character for a value `n < 16`, as produced by
Python's `'{:x}'.format`. -/
def hexDigitChar (n : Nat) : Char :=
  if n < 10 then Char.ofNat (48 + n) else Char.ofNat (87 + n)

/-- Value of a hex digit character, `none` when the character is not one of
`0-9`, `a-f`, `A-F` (the exact set accepted by `binascii.unhexlify`). -/
def hexCharVal (c : Char) : Option Nat :=
  if 48 ≤ c.toNat ∧ c.toNat ≤ 57 then some (c.toNat - 48)
  else if 97 ≤ c.toNat ∧ c.toNat ≤ 102 then some (c.toNat - 87)
  else if 65 ≤ c.toNat ∧ c.toNat ≤ 70 then some (c.toNat - 55)
  else none

/-- Whether a character is a hex digit (`0-9`, `a-f`, `A-F`). -/
def isHexDigitChar (c : Char) : Bool :=
  (hexCharVal c).isSome

/-- Fuel-driven digit loop for hex rendering (structural recursion so that
concrete instances reduce inside the kernel). -/
def natToHexCore : Nat → Nat → List Char → List Char
  | 0, _, acc => acc
  | fuel + 1, n, acc =>
    if n < 16 then hexDigitChar (n % 16) :: acc
    else natToHexCore fuel (n / 16) (hexDigitChar (n % 16) :: acc)

/-- Hex rendering of a natural number, lowercase, no leading zeros
(`'{:x}'.format(n)`; `0` renders as `"0"`). -/
def natToHexList (n : Nat) : List Char :=
  natToHexCore (n + 1) n []

/-- Hex rendering of a Python integer: negative values render as `'-'`
followed by the hex digits of the absolute value (`'{:x}'.format(i)`). -/
def pyIntHexList (i : Int) : List Char :=
  if i < 0 then '-' :: natToHexList i.natAbs else natToHexList i.toNat

/-- Python's `str.zfill`: left-pad with `'0'` up to width `w` (no-op when the
string is already at least that long). -/
def zfillChars (w : Nat) (cs : List Char) : List Char :=
  List.replicate (w - cs.length) '0' ++ cs

/-- Python's `binascii.unhexlify`: decode pairs of hex digits to bytes;
`none` models the `binascii.Error` raised on an odd-length string or on a
non-hex character. -/
def unhexlify : List Char → Option (List Nat)
  | [] => some []
  | [_] => none
  | c1 :: c2 :: rest =>
    match hexCharVal c1, hexCharVal c2, unhexlify rest with
    | some h1, some h2, some bs => some ((16 * h1 + h2) :: bs)
    | _, _, _ => none

/-- Models `eth_utils.remove_0x_prefix` at the character-list level: strip a
leading `0x`/`0X` if present. -/
def strip0xChars : List Char → List Char
  | c0 :: c1 :: rest =>
    if c0 = '0' ∧ (c1 = 'x' ∨ c1 = 'X') then rest else c0 :: c1 :: rest
  | cs => cs

/-- Models `eth_utils.remove_0x_prefix` on strings. -/
def remove0x (s : String) : String :=
  ⟨strip0xChars s.data⟩

/-- Models `eth_utils.decode_hex`: strip an optional `0x` prefix, then
unhexlify. -/
def decode_hexChars (cs : List Char) : Option (List Nat) :=
  unhexlify (strip0xChars cs)

/-- Two hex characters (lowercase) for one byte, as `binascii.hexlify`
renders it. -/
def byteToHexChars (b : Nat) : List Char :=
  [hexDigitChar (b / 16 % 16), hexDigitChar (b % 16)]

/-- Hex characters of a byte string. -/
def bytesToHexChars (bs : List Nat) : List Char :=
  bs.flatMap byteToHexChars

/-- Models `eth_utils.encode_hex`: hex-encode a byte string and add the
`0x` prefix (the library documents its output as `0x`-prefixed). -/
def encode_hex (bs : List Nat) : String :=
  ⟨'0' :: 'x' :: bytesToHexChars bs⟩

/-- UTF-8 encoding of a single code point (Python `chr(n).encode()`). -/
def utf8EncodeCharNat (n : Nat) : List Nat :=
  if n < 128 then [n]
  else if n < 2048 then [192 + n / 64, 128 + n % 64]
  else if n < 65536 then [224 + n / 4096, 128 + n / 64 % 64, 128 + n % 64]
  else [240 + n / 262144, 128 + n / 4096 % 64, 128 + n / 64 % 64, 128 + n % 64]

/-- UTF-8 encoding of a string (Python `s.encode()`). -/
def utf8Encode (s : String) : List Nat :=
  s.data.flatMap (fun c => utf8EncodeCharNat c.toNat)

/-- Big-endian value of a byte string. -/
def bytesToNat (bs : List Nat) : Nat :=
  bs.foldl (fun acc b => acc * 256 + b) 0

/-- The `format_int` helper nested inside `sha3`: a non-negative value is
hex-formatted and zero-filled to `size // 4` digits; a negative value is
formatted as `(1 << size) + value` with NO zero-fill; either string is then
passed to `decode_hex`. -/
def format_int (value : Int) (size : Nat) : Option (List Nat) :=
  if 0 ≤ value then
    decode_hexChars (zfillChars (size / 4) (natToHexList value.toNat))
  else
    decode_hexChars (pyIntHexList (2 ^ size + value))

/-- The run-time-typed arguments accepted by `sha3`, as a tagged variant
(bytes / str / int / (int, size) tuple); any other Python type raises
`ValueError`, which the exhaustive variant rules out by construction. -/
inductive Sha3Arg where
  | bytes (bs : List Nat)
  | str (s : String)
  | int (v : Int)
  | tuple (v : Int) (size : Nat)

/-- Canonical byte encoding of one `sha3` argument: bytes pass through, a
string starting with exactly `'0x'` is hex-decoded from its third character
on, any other string is UTF-8 encoded, an int is `format_int` at size 256,
and a tuple is `format_int` at its given size. -/
def encodeArg : Sha3Arg → Option (List Nat)
  | Sha3Arg.bytes bs => some bs
  | Sha3Arg.str s =>
    match s.data with
    | '0' :: 'x' :: rest => decode_hexChars rest
    | _ => some (utf8Encode s)
  | Sha3Arg.int v => format_int v 256
  | Sha3Arg.tuple v size => format_int v size

/-- The message built by `sha3` before hashing: the concatenation of the
encodings of its arguments, failing if any single encoding fails. -/
def sha3Msg (args : List Sha3Arg) : Option (List Nat) :=
  (args.mapM encodeArg).map List.flatten

/-- Group order of secp256k1, the curve used by coincurve. -/
def secp256k1N : Nat :=
  0xFFFFFFFFFFFFFFFFFFFFFFFFFFFFFFFEBAAEDCE6AF48A03BBFD25E8CD0364141

/-- Models coincurve's `PrivateKey.from_hex`: hex-decode the (unprefixed)
string and require a 32-byte secret whose value is a valid nonzero scalar
below the curve order; `none` models the exception raised otherwise. -/
def privkeyFromHex (s : String) : Option (List Nat) :=
  match unhexlify s.data with
  | none => none
  | some bs =>
    if bs.length = 32 ∧ 0 < bytesToNat bs ∧ bytesToNat bs < secp256k1N then some bs
    else none

/-- The external cryptographic primitives the source imports (coincurve's
secp256k1 operations and eth_utils' `keccak`), abstracted as functions.
`privToPub` returns the uncompressed 65-byte public key
(`PublicKey.format(compressed=False)`); `signRecoverable` is
`PrivateKey.sign_recoverable(digest, hasher=None)`; `recoverPubkey` is
`PublicKey.from_signature_and_message(sig, digest, hasher=None)` with `none`
modelling its failure exception. -/
structure Crypto where
  keccak : List Nat → List Nat
  privToPub : List Nat → List Nat
  signRecoverable : List Nat → List Nat → List Nat
  recoverPubkey : List Nat → List Nat → Option (List Nat)

/-- The last `n` bytes of a byte string (Python `bs[-n:]`). -/
def lastBytes (n : Nat) (bs : List Nat) : List Nat :=
  bs.drop (bs.length - n)

/-- Source `pubkey_to_addr` on an uncompressed public key: the keccak hash of
the 64 coordinate bytes (tag byte dropped), last 20 bytes, `0x`-hex encoded.
Hashing one bytes argument through `sha3` is exactly `keccak` on it. -/
def pubkey_to_addr (C : Crypto) (pk : List Nat) : String :=
  encode_hex (lastBytes 20 (C.keccak (pk.drop 1)))

/-- Source `privkey_to_addr`: parse the hex private key after stripping any
`0x` prefix, derive the public key, delegate to `pubkey_to_addr`. -/
def privkey_to_addr (C : Crypto) (privkey : String) : Option String :=
  (privkeyFromHex (remove0x privkey)).map (fun sk => pubkey_to_addr C (C.privToPub sk))

/-- Source `generate_privkey`, as a function of the 32 random secret bytes
drawn by `coincurve.PrivateKey()`: the secret is passed to
`eth_utils.encode_hex`. -/
def generate_privkey (secret : List Nat) : String :=
  encode_hex secret

/-- Source `addr_from_sig`: normalize a legacy recovery id (last byte ≥ 27
has 27 subtracted), recover the public key, derive its address.  `none`
models the exceptions of indexing an empty bytes object or of failed point
recovery. -/
def addr_from_sig (C : Crypto) (sig msg : List Nat) : Option String :=
  match sig.getLast? with
  | none => none
  | some v =>
    let sig2 := if 27 ≤ v then sig.dropLast ++ [v - 27] else sig
    (C.recoverPubkey sig2 msg).map (pubkey_to_addr C)

/-- Source `sign`: parse the private key, assert the digest is 32 bytes and
the recoverable signature 65 bytes (`none` models a failed `assert`), then
re-encode the final recovery-id byte through `chr(...).encode()` — a UTF-8
encoding of the byte value spliced onto the first 64 bytes. -/
def sign (C : Crypto) (privkey : String) (msg : List Nat) : Option (List Nat) :=
  match privkeyFromHex (remove0x privkey) with
  | none => none
  | some sk =>
    if msg.length = 32 then
      let sig := C.signRecoverable sk msg
      if sig.length = 65 then
        match sig.getLast? with
        | some v => some (sig.dropLast ++ utf8EncodeCharNat v)
        | none => none
      else none
    else none

/-- Source `balance_message_hash`: the Solidity-packed hash of
`(receiver, uint32 open_block_number, uint192 balance, contract_address)`. -/
def balance_message_hash (C : Crypto) (receiver : String) (openBlockNumber : Int)
    (balance : Int) (contractAddress : String) : Option (List Nat) :=
  (sha3Msg [Sha3Arg.str receiver, Sha3Arg.tuple openBlockNumber 32,
    Sha3Arg.tuple balance 192, Sha3Arg.str contractAddress]).map C.keccak

/-- Source `sign_balance_proof`: sign the balance message hash. -/
def sign_balance_proof (C : Crypto) (privkey receiver : String) (openBlockNumber : Int)
    (balance : Int) (contractAddress : String) : Option (List Nat) :=
  (balance_message_hash C receiver openBlockNumber balance contractAddress).bind
    (sign C privkey)

/-- Source `verify_balance_proof`: recompute the balance message hash and
recover the signer's address from the supplied signature. -/
def verify_balance_proof (C : Crypto) (receiver : String) (openBlockNumber : Int)
    (balance : Int) (balanceSig : List Nat) (contractAddress : String) : Option String :=
  (balance_message_hash C receiver openBlockNumber balance contractAddress).bind
    (fun msg => addr_from_sig C balanceSig msg)

/-- Python `str.upper` restricted to ASCII (all strings handled here are
ASCII). -/
def asciiUpperChar (c : Char) : Char :=
  if 97 ≤ c.toNat ∧ c.toNat ≤ 122 then Char.ofNat (c.toNat - 32) else c

/-- Python `str.lower` restricted to ASCII. -/
def asciiLowerChar (c : Char) : Char :=
  if 65 ≤ c.toNat ∧ c.toNat ≤ 90 then Char.ofNat (c.toNat + 32) else c

/-- Python `str.upper` on a whole string. -/
def pyUpper (s : String) : String :=
  ⟨s.data.map asciiUpperChar⟩

/-- Models `eth_utils.to_normalized_address` on string input: strip any
`0x`/`0X` prefix, lowercase, and return the `0x`-prefixed result when it is
a well-formed 40-hex-digit address; `none` models the `ValueError` the
library documents for anything else. -/
def to_normalized_address (s : String) : Option String :=
  let core := (strip0xChars s.data).map asciiLowerChar
  if core.length = 40 ∧ core.all isHexDigitChar then some ⟨'0' :: 'x' :: core⟩
  else none

/-- Source `equal_addrs`: normalize both addresses and compare; an exception
from either normalization propagates (`none`). -/
def equal_addrs (addr1 addr2 : String) : Option Bool :=
  match to_normalized_address addr1, to_normalized_address addr2 with
  | some x, some y => some (x == y)
  | _, _ => none

/-- Executable stand-in for the external primitives, used only to witness
the abstract theorems at concrete inputs: `keccak` is a 32-byte checksum,
keys and signatures are byte shuffles satisfying the recovery contract. -/
def toyCrypto : Crypto where
  keccak bs := List.replicate 32 ((bs.foldl (· + ·) 0) % 256)
  privToPub sk := 4 :: sk ++ List.replicate 32 0
  signRecoverable sk d := (sk ++ d ++ List.replicate 64 0).take 64 ++ [0]
  recoverPubkey s _ := some (4 :: s.take 32 ++ List.replicate 32 0)

/-! ### Helper lemmas about characters and hex rendering -/

theorem charToNat_ofNat (n : Nat) (h : n < 55296) : (Char.ofNat n).toNat = n := by
  unfold Char.ofNat
  rw [dif_pos (Or.inl h)]
  rfl

theorem isHexDigitChar_iff (c : Char) :
    isHexDigitChar c = true ↔
      (48 ≤ c.toNat ∧ c.toNat ≤ 57) ∨ (97 ≤ c.toNat ∧ c.toNat ≤ 102) ∨
        (65 ≤ c.toNat ∧ c.toNat ≤ 70) := by
  unfold isHexDigitChar hexCharVal
  split_ifs with h1 h2 h3 <;> simp <;> omega

theorem hexCharVal_hexDigitChar (m : Nat) (h : m < 16) :
    hexCharVal (hexDigitChar m) = some m := by
  interval_cases m <;> decide

theorem isHexDigitChar_hexDigitChar (m : Nat) (h : m < 16) :
    isHexDigitChar (hexDigitChar m) = true := by
  rw [isHexDigitChar, hexCharVal_hexDigitChar m h]
  rfl

theorem asciiLowerChar_hex (c : Char) (h : isHexDigitChar c = true) :
    isHexDigitChar (asciiLowerChar c) = true := by
  rw [isHexDigitChar_iff] at h
  rcases h with h | h | h
  · rw [asciiLowerChar, if_neg (by omega), isHexDigitChar_iff]
    omega
  · rw [asciiLowerChar, if_neg (by omega), isHexDigitChar_iff]
    omega
  · rw [asciiLowerChar, if_pos (by omega), isHexDigitChar_iff,
      charToNat_ofNat _ (by omega)]
    omega

theorem asciiLower_asciiUpper_of_hex (c : Char) (h : isHexDigitChar c = true) :
    asciiLowerChar (asciiUpperChar c) = asciiLowerChar c := by
  rw [isHexDigitChar_iff] at h
  rcases h with h | h | h
  · rw [asciiUpperChar, if_neg (by omega)]
  · rw [asciiUpperChar, if_pos (by omega), asciiLowerChar, asciiLowerChar,
      if_pos (by rw [charToNat_ofNat _ (by omega)]; omega),
      if_neg (by omega), charToNat_ofNat _ (by omega)]
    have : c.toNat - 32 + 32 = c.toNat := by omega
    rw [this, Char.ofNat_toNat]
  · rw [asciiUpperChar, if_neg (by omega)]

theorem natToHexCore_acc (fuel : Nat) :
    ∀ (n : Nat) (acc : List Char),
      natToHexCore fuel n acc = natToHexCore fuel n [] ++ acc := by
  induction fuel with
  | zero => intro n acc; rfl
  | succ fuel ih =>
    intro n acc
    rw [natToHexCore, natToHexCore]
    split
    · rfl
    · rw [ih (n / 16) (hexDigitChar (n % 16) :: acc),
        ih (n / 16) [hexDigitChar (n % 16)], List.append_assoc]
      rfl

theorem natToHexCore_fuel (n : Nat) :
    ∀ f1 f2 acc, n < f1 → n < f2 →
      natToHexCore f1 n acc = natToHexCore f2 n acc := by
  induction n using Nat.strong_induction_on with
  | _ n ih =>
    intro f1 f2 acc h1 h2
    match f1, f2 with
    | g1 + 1, g2 + 1 =>
      rw [natToHexCore, natToHexCore]
      split
      · rfl
      · rename_i h16
        exact ih (n / 16) (Nat.div_lt_self (by omega) (by omega)) g1 g2 _
          (by omega) (by omega)

/-- Clean unfolding equation for `natToHexList`: one low digit is peeled off
the right. -/
theorem natToHexList_eq (n : Nat) :
    natToHexList n =
      if n < 16 then [hexDigitChar n]
      else natToHexList (n / 16) ++ [hexDigitChar (n % 16)] := by
  rw [natToHexList, natToHexCore]
  split
  · rename_i h
    rw [Nat.mod_eq_of_lt h]
  · rename_i h
    rw [natToHexCore_acc, natToHexList,
      natToHexCore_fuel (n / 16) n (n / 16 + 1) []
        (Nat.div_lt_self (by omega) (by omega)) (by omega)]

theorem natToHexList_ne_nil (n : Nat) : natToHexList n ≠ [] := by
  rw [natToHexList_eq]
  split <;> simp

theorem natToHexList_length_le (k : Nat) :
    ∀ n, 1 ≤ k → n < 16 ^ k → (natToHexList n).length ≤ k := by
  induction k with
  | zero => omega
  | succ k ih =>
    intro n _ hn
    rw [natToHexList_eq]
    split
    · simp
    · rename_i h16
      have hk : 1 ≤ k := by
        by_contra hk0
        have : k = 0 := by omega
        subst this
        simp at hn
        omega
      have hdiv : n / 16 < 16 ^ k := by
        rw [Nat.div_lt_iff_lt_mul (by omega)]
        calc n < 16 ^ (k + 1) := hn
        _ = 16 ^ k * 16 := by rw [pow_succ]
      have := ih (n / 16) hk hdiv
      simp only [List.length_append, List.length_cons, List.length_nil]
      omega

theorem natToHexList_length_ge (k : Nat) :
    ∀ n, 16 ^ k ≤ n → k + 1 ≤ (natToHexList n).length := by
  induction k with
  | zero =>
    intro n _
    have := natToHexList_ne_nil n
    cases h : natToHexList n with
    | nil => exact absurd h this
    | cons a t => simp
  | succ k ih =>
    intro n hn
    have hpw : 16 ≤ 16 ^ (k + 1) := by
      calc (16 : Nat) = 16 ^ 1 := by norm_num
      _ ≤ 16 ^ (k + 1) := Nat.pow_le_pow_right (by omega) (by omega)
    have h16 : 16 ≤ n := le_trans hpw hn
    rw [natToHexList_eq]
    rw [if_neg (by omega)]
    have hdiv : 16 ^ k ≤ n / 16 := by
      rw [Nat.le_div_iff_mul_le (by omega)]
      calc 16 ^ k * 16 = 16 ^ (k + 1) := by rw [pow_succ]
      _ ≤ n := hn
    have := ih (n / 16) hdiv
    simp only [List.length_append, List.length_cons, List.length_nil]
    omega

theorem natToHexList_length_eq (k n : Nat) (h1 : 16 ^ k ≤ n) (h2 : n < 16 ^ (k + 1)) :
    (natToHexList n).length = k + 1 :=
  le_antisymm (natToHexList_length_le (k + 1) n (by omega) h2)
    (natToHexList_length_ge k n h1)

theorem natToHexList_all_hex (n : Nat) :
    ∀ c ∈ natToHexList n, isHexDigitChar c = true := by
  induction n using Nat.strong_induction_on with
  | _ n ih =>
    intro c hc
    rw [natToHexList_eq] at hc
    split at hc
    · rename_i h
      simp at hc
      subst hc
      exact isHexDigitChar_hexDigitChar n h
    · rename_i h
      rcases List.mem_append.mp hc with h1 | h1
      · exact ih (n / 16) (Nat.div_lt_self (by omega) (by omega)) c h1
      · simp at h1
        subst h1
        exact isHexDigitChar_hexDigitChar (n % 16) (Nat.mod_lt n (by omega))

/-! ### Helper lemmas about unhexlify, zfill and prefix stripping -/

theorem unhexlify_all_hex :
    ∀ cs : List Char, (∀ c ∈ cs, isHexDigitChar c = true) → cs.length % 2 = 0 →
      ∃ bs, unhexlify cs = some bs ∧ bs.length = cs.length / 2
  | [], _, _ => ⟨[], rfl, rfl⟩
  | [_], _, hodd => by simp at hodd
  | c1 :: c2 :: rest, hhex, heven => by
    have h1 : isHexDigitChar c1 = true := hhex c1 (by simp)
    have h2 : isHexDigitChar c2 = true := hhex c2 (by simp)
    rw [isHexDigitChar, Option.isSome_iff_exists] at h1 h2
    obtain ⟨v1, hv1⟩ := h1
    obtain ⟨v2, hv2⟩ := h2
    have hrest : ∀ c ∈ rest, isHexDigitChar c = true := by
      intro c hc
      exact hhex c (by simp [hc])
    have hrlen : rest.length % 2 = 0 := by
      simp only [List.length_cons] at heven
      omega
    obtain ⟨bs, hbs, hlen⟩ := unhexlify_all_hex rest hrest hrlen
    refine ⟨(16 * v1 + v2) :: bs, ?_, ?_⟩
    · rw [unhexlify, hv1, hv2, hbs]
    · simp only [List.length_cons, hlen]
      omega

theorem unhexlify_odd :
    ∀ cs : List Char, cs.length % 2 = 1 → unhexlify cs = none
  | [], h => by simp at h
  | [_], _ => rfl
  | c1 :: c2 :: rest, hodd => by
    have hrlen : rest.length % 2 = 1 := by
      simp only [List.length_cons] at hodd
      omega
    rw [unhexlify, unhexlify_odd rest hrlen]
    cases hexCharVal c1 <;> cases hexCharVal c2 <;> rfl

theorem zfillChars_length (w : Nat) (cs : List Char) :
    (zfillChars w cs).length = max w cs.length := by
  simp only [zfillChars, List.length_append, List.length_replicate]
  omega

theorem zfillChars_eq_self (w : Nat) (cs : List Char) (h : w ≤ cs.length) :
    zfillChars w cs = cs := by
  simp [zfillChars, Nat.sub_eq_zero_of_le h]

theorem zfillChars_all_hex (w : Nat) (cs : List Char)
    (h : ∀ c ∈ cs, isHexDigitChar c = true) :
    ∀ c ∈ zfillChars w cs, isHexDigitChar c = true := by
  intro c hc
  rcases List.mem_append.mp hc with h1 | h1
  · have := List.eq_of_mem_replicate h1
    subst this
    decide
  · exact h c h1

theorem strip0xChars_eq_self_of_hex (cs : List Char)
    (h : ∀ c ∈ cs, isHexDigitChar c = true) : strip0xChars cs = cs := by
  match cs with
  | [] => rfl
  | [c] => rfl
  | c0 :: c1 :: rest =>
    rw [strip0xChars, if_neg]
    rintro ⟨_, hx | hx⟩
    · subst hx
      exact absurd (h 'x' (by simp)) (by decide)
    · subst hx
      exact absurd (h 'X' (by simp)) (by decide)

theorem decode_hexChars_all_hex (cs : List Char)
    (hhex : ∀ c ∈ cs, isHexDigitChar c = true) (heven : cs.length % 2 = 0) :
    ∃ bs, decode_hexChars cs = some bs ∧ bs.length = cs.length / 2 := by
  rw [decode_hexChars, strip0xChars_eq_self_of_hex cs hhex]
  exact unhexlify_all_hex cs hhex heven

/-! ### Helper lemmas about format_int -/

theorem pow16_div4 (w : Nat) (h : w % 4 = 0) : (16 : Nat) ^ (w / 4) = 2 ^ w := by
  have : 16 = 2 ^ 4 := by norm_num
  rw [this, ← pow_mul]
  congr 1
  omega

/-- Core shape of `format_int` on two's-complement-range values: for a width
that is a positive multiple of 8 and `-2^(w-1) ≤ v < 2^w`, the encoding
succeeds and yields exactly `w / 8` bytes. -/
theorem format_int_ok_of_range (v : Int) (w : Nat) (h8 : w % 8 = 0) (hw : 0 < w)
    (hlo : -(2 : Int) ^ (w - 1) ≤ v) (hhi : v < 2 ^ w) :
    ∃ bs, format_int v w = some bs ∧ bs.length = w / 8 := by
  have hw8 : 8 ≤ w := by omega
  have h4 : w % 4 = 0 := by omega
  rcases le_or_lt 0 v with hv | hv
  · -- non-negative branch: zero-filled hex of the value
    rw [format_int, if_pos hv]
    have hnat : v.toNat < 16 ^ (w / 4) := by
      rw [pow16_div4 w h4]
      have : ((2 : Nat) ^ w : Int) = (2 : Int) ^ w := by push_cast; ring
      omega
    have hle : (natToHexList v.toNat).length ≤ w / 4 :=
      natToHexList_length_le (w / 4) v.toNat (by omega) hnat
    have hlen : (zfillChars (w / 4) (natToHexList v.toNat)).length = w / 4 := by
      rw [zfillChars_length]
      omega
    have hhex := zfillChars_all_hex (w / 4) (natToHexList v.toNat)
      (natToHexList_all_hex v.toNat)
    obtain ⟨bs, hbs, hbslen⟩ := decode_hexChars_all_hex _ hhex (by omega)
    exact ⟨bs, hbs, by omega⟩
  · -- negative branch: hex of (1 << w) + value, no zero fill
    rw [format_int, if_neg (by omega)]
    have hshift_lo : (2 : Int) ^ (w - 1) ≤ 2 ^ w + v := by
      have : (2 : Int) ^ w = 2 ^ (w - 1) * 2 := by
        rw [← pow_succ]
        congr 1
        omega
      omega
    have hshift_hi : (2 : Int) ^ w + v < 2 ^ w := by omega
    have hpos : (0 : Int) ≤ 2 ^ w + v := le_trans (by positivity) hshift_lo
    rw [pyIntHexList, if_neg (by omega)]
    set m := ((2 : Int) ^ w + v).toNat with hm
    have hcast : ((2 : Nat) ^ (w - 1) : Int) = (2 : Int) ^ (w - 1) := by push_cast; ring
    have hcast2 : ((2 : Nat) ^ w : Int) = (2 : Int) ^ w := by push_cast; ring
    have hm_lo : 2 ^ (w - 1) ≤ m := by omega
    have hm_hi : m < 2 ^ w := by omega
    have hlow16 : 16 ^ (w / 4 - 1) ≤ m := by
      refine le_trans ?_ hm_lo
      calc (16 : Nat) ^ (w / 4 - 1) = 2 ^ (4 * (w / 4 - 1)) := by
            rw [show (16 : Nat) = 2 ^ 4 by norm_num, ← pow_mul]
      _ ≤ 2 ^ (w - 1) := Nat.pow_le_pow_right (by omega) (by omega)
    have hhi16 : m < 16 ^ (w / 4 - 1 + 1) := by
      rw [show w / 4 - 1 + 1 = w / 4 by omega, pow16_div4 w h4]
      exact hm_hi
    have hlen : (natToHexList m).length = w / 4 := by
      rw [natToHexList_length_eq (w / 4 - 1) m hlow16 hhi16]
      omega
    obtain ⟨bs, hbs, hbslen⟩ :=
      decode_hexChars_all_hex _ (natToHexList_all_hex m) (by omega)
    exact ⟨bs, hbs, by omega⟩

theorem unhexlify_isSome_iff (cs : List Char)
    (hhex : ∀ c ∈ cs, isHexDigitChar c = true) :
    (unhexlify cs).isSome = true ↔ cs.length % 2 = 0 := by
  constructor
  · intro h
    rcases Nat.mod_two_eq_zero_or_one cs.length with he | ho
    · exact he
    · rw [unhexlify_odd cs ho] at h
      simp at h
  · intro he
    obtain ⟨bs, hbs, _⟩ := unhexlify_all_hex cs hhex he
    rw [hbs]
    rfl

theorem sha3Msg_singleton_isSome (a : Sha3Arg) :
    (sha3Msg [a]).isSome = (encodeArg a).isSome := by
  rw [sha3Msg, List.mapM_cons, List.mapM_nil]
  cases h : encodeArg a <;> simp [h]

/-! ### Claims C3, C4, C7, C8 -/

/-- C3, counterexample: the claim quantifies over EVERY integer value, but the
encoding of the value `4096` at bit-width `8` produces two bytes, not
`8 / 8 = 1` — the positive branch's `zfill` pads but never truncates, so an
out-of-range value yields an over-long encoding. -/
theorem claim_C3_counterexample :
    (format_int 4096 8).map List.length = some 2 ∧ (2 : Nat) ≠ 8 / 8 := by
  decide

/-- C3, amended: for every bit-width that is a positive multiple of 8 and
every value in the range `-2^(width-1) ≤ value < 2^width`, the sized-integer
encoding used inside the hashing operation succeeds and produces exactly
`width / 8` bytes.  (Outside this range the encoding can be over-long or
fail on an odd-length or negative hex rendering.) -/
theorem claim_C3 (v : Int) (w : Nat) (h8 : w % 8 = 0) (hw : 0 < w)
    (hlo : -(2 : Int) ^ (w - 1) ≤ v) (hhi : v < 2 ^ w) :
    (format_int v w).map List.length = some (w / 8) := by
  obtain ⟨bs, hbs, hlen⟩ := format_int_ok_of_range v w h8 hw hlo hhi
  rw [hbs]
  simpa using hlen

/-- C3, witness: the amended statement evaluated at value `5`, width `32`:
four bytes. -/
theorem claim_C3_witness :
    ((32 : Nat) % 8 = 0 ∧ 0 < (32 : Nat) ∧ -(2 : Int) ^ (32 - 1) ≤ 5 ∧
        (5 : Int) < 2 ^ 32) ∧
      (format_int 5 32).map List.length = some (32 / 8) :=
  ⟨by decide, claim_C3 5 32 (by decide) (by decide) (by decide) (by decide)⟩

/-- C4, counterexample: the claim says hashing `(value, 7)` fails for every
integer value, but hashing the sized integer `(255, 7)` succeeds — `255`
renders as the even-length hex string `"ff"`, `size // 4 = 1` pads nothing,
and no width validation exists anywhere in `sha3`. -/
theorem claim_C4_counterexample :
    (sha3Msg [Sha3Arg.tuple 255 7]).isSome = true := by
  decide

/-- C4, amended: `sha3` performs no bit-width validation at all.  For a
non-negative value at width 7, hashing succeeds exactly when the value's
bare hex rendering has even length (width 7 zero-fills to `7 // 4 = 1`
digit, a no-op); when the length is odd the failure is `binascii`'s
odd-length error, not a dedicated invalid-width error.  In particular
`(0, 7)` fails (hex `"0"`, odd) while `(255, 7)` succeeds. -/
theorem claim_C4 (v : Int) (hv : 0 ≤ v) :
    (sha3Msg [Sha3Arg.tuple v 7]).isSome = true ↔
      (natToHexList v.toNat).length % 2 = 0 := by
  rw [sha3Msg_singleton_isSome]
  show (format_int v 7).isSome = true ↔ _
  rw [format_int, if_pos hv]
  have hne := natToHexList_ne_nil v.toNat
  have hlen : 1 ≤ (natToHexList v.toNat).length := by
    cases h : natToHexList v.toNat with
    | nil => exact absurd h hne
    | cons a t => simp
  rw [show (7 : Nat) / 4 = 1 from rfl, zfillChars_eq_self 1 _ hlen,
    decode_hexChars, strip0xChars_eq_self_of_hex _ (natToHexList_all_hex v.toNat)]
  exact unhexlify_isSome_iff _ (natToHexList_all_hex v.toNat)

/-- C4, witness: the amended statement evaluated at value 255. -/
theorem claim_C4_witness :
    (0 ≤ (255 : Int)) ∧
      ((sha3Msg [Sha3Arg.tuple 255 7]).isSome = true ↔
        (natToHexList (255 : Int).toNat).length % 2 = 0) :=
  ⟨by decide, claim_C4 255 (by decide)⟩

/-- C7 (claim refuted by the code): for every drawn secret, the hex string
`generate_privkey` returns DOES carry a `0x` prefix, because
`eth_utils.encode_hex` always prefixes its output — contradicting the
module docstring's convention that private keys come without one. -/
theorem claim_C7 (secret : List Nat) :
    (generate_privkey secret).data.take 2 = ['0', 'x'] := rfl

/-- C8, counterexample: `equal_addrs` is not total on arbitrary strings —
on the non-address input `"zzz"` the underlying
`eth_utils.to_normalized_address` raises `ValueError`, which propagates. -/
theorem claim_C8_counterexample : equal_addrs "zzz" "zzz" = none := by
  decide

/-- C8, amended: `equal_addrs(a, b)` returns a boolean whenever both inputs
are well-formed addresses (40 hex digits after ignoring an optional
`0x`/`0X` prefix, any letter case); on any other string the normalization
raises `ValueError` instead of returning false. -/
theorem claim_C8 (a b : String)
    (ha40 : (strip0xChars a.data).length = 40)
    (hahex : ∀ c ∈ strip0xChars a.data, isHexDigitChar c = true)
    (hb40 : (strip0xChars b.data).length = 40)
    (hbhex : ∀ c ∈ strip0xChars b.data, isHexDigitChar c = true) :
    (equal_addrs a b).isSome = true := by
  have norm : ∀ s : String, (strip0xChars s.data).length = 40 →
      (∀ c ∈ strip0xChars s.data, isHexDigitChar c = true) →
      (to_normalized_address s).isSome = true := by
    intro s h40 hhex
    rw [to_normalized_address]
    rw [if_pos]
    · rfl
    · refine ⟨by simpa using h40, ?_⟩
      rw [List.all_eq_true]
      intro c hc
      obtain ⟨d, hd, rfl⟩ := List.mem_map.mp hc
      exact asciiLowerChar_hex d (hhex d hd)
  have hna := norm a ha40 hahex
  have hnb := norm b hb40 hbhex
  rw [Option.isSome_iff_exists] at hna hnb
  obtain ⟨x, hx⟩ := hna
  obtain ⟨y, hy⟩ := hnb
  rw [equal_addrs, hx, hy]
  rfl

/-- C8, witness: the amended statement on two concrete well-formed
addresses, one prefixed and mixed-case, one bare. -/
theorem claim_C8_witness :
    ((strip0xChars ("0xAaBbCcDdEeFf00112233445566778899aAbBcCdD" : String).data).length = 40 ∧
        (strip0xChars ("aabbccddeeff00112233445566778899aabbccdd" : String).data).length = 40) ∧
      (equal_addrs "0xAaBbCcDdEeFf00112233445566778899aAbBcCdD"
          "aabbccddeeff00112233445566778899aabbccdd").isSome = true :=
  ⟨by decide,
    claim_C8 "0xAaBbCcDdEeFf00112233445566778899aAbBcCdD"
      "aabbccddeeff00112233445566778899aabbccdd"
      (by decide) (by decide) (by decide) (by decide)⟩

/-! ### Claims C5, C6, C10 -/

theorem natToHexList_length_high (w m : Nat) (h4 : w % 4 = 0) (hw : 4 ≤ w)
    (hlo : 2 ^ (w - 4) ≤ m) (hhi : m < 2 ^ w) :
    (natToHexList m).length = w / 4 := by
  have h1 : 16 ^ (w / 4 - 1) ≤ m := by
    refine le_trans ?_ hlo
    calc (16 : Nat) ^ (w / 4 - 1) = 2 ^ (4 * (w / 4 - 1)) := by
          rw [show (16 : Nat) = 2 ^ 4 by norm_num, ← pow_mul]
    _ ≤ 2 ^ (w - 4) := Nat.pow_le_pow_right (by omega) (by omega)
  have h2 : m < 16 ^ (w / 4 - 1 + 1) := by
    rw [show w / 4 - 1 + 1 = w / 4 by omega, pow16_div4 w h4]
    exact hhi
  rw [natToHexList_length_eq (w / 4 - 1) m h1 h2]
  omega

/-- Negative values in two's-complement range format to the same bytes as
their `2^w` shift: the negative branch renders `(1 << w) + v`, whose hex
string is already the full `w / 4` digits, so the positive branch's `zfill`
on the shifted value adds nothing. -/
theorem format_int_neg_wrap (b : Int) (w : Nat) (h8 : w % 8 = 0) (hw : 0 < w)
    (h1 : -(2 : Int) ^ (w - 1) ≤ b) (h2 : b < 0) :
    format_int b w = format_int (b + 2 ^ w) w := by
  have hw8 : 8 ≤ w := by omega
  have hpow : (2 : Int) ^ w = 2 ^ (w - 1) * 2 := by
    rw [← pow_succ]
    congr 1
    omega
  have hp1 : (0 : Int) ≤ 2 ^ (w - 1) := by positivity
  rw [format_int, if_neg (by omega), format_int, if_pos (by omega),
    pyIntHexList, if_neg (by omega), Int.add_comm b]
  congr 2
  rw [zfillChars_eq_self]
  set m := ((2 : Int) ^ w + b).toNat with hm
  have hcast : ((2 : Nat) ^ (w - 1) : Int) = (2 : Int) ^ (w - 1) := by
    push_cast
    ring
  have hcast2 : ((2 : Nat) ^ w : Int) = (2 : Int) ^ w := by
    push_cast
    ring
  have hm_lo : 2 ^ (w - 1) ≤ m := by omega
  have hm_hi : m < 2 ^ w := by omega
  have hlen : (natToHexList m).length = w / 4 :=
    natToHexList_length_high w m (by omega) (by omega)
      (le_trans (Nat.pow_le_pow_right (by omega) (by omega)) hm_lo) hm_hi
  omega

theorem sha3Msg_cons (a : Sha3Arg) (rest : List Sha3Arg) :
    sha3Msg (a :: rest) =
      (encodeArg a).bind (fun b => (sha3Msg rest).map (fun tail => b ++ tail)) := by
  rw [sha3Msg, sha3Msg, List.mapM_cons]
  cases encodeArg a <;> cases hm : List.mapM encodeArg rest <;> simp [hm]

/-- C5: the balance field is encoded as a 192-bit two's-complement value
regardless of sign — for every receiver, open block number and contract
address whose own encodings succeed, and every balance `b` with
`-2^191 ≤ b < 0`, the balance message hash succeeds and coincides with the
hash at `b + 2^192`. -/
theorem claim_C5 (C : Crypto) (r ca : String) (bl b : Int)
    (hr : (encodeArg (Sha3Arg.str r)).isSome = true)
    (hc : (encodeArg (Sha3Arg.str ca)).isSome = true)
    (hbl : 0 ≤ bl) (hbl32 : bl < 2 ^ 32)
    (hb1 : -(2 : Int) ^ 191 ≤ b) (hb2 : b < 0) :
    (balance_message_hash C r bl b ca).isSome = true ∧
      balance_message_hash C r bl b ca =
        balance_message_hash C r bl (b + 2 ^ 192) ca := by
  have heq : format_int b 192 = format_int (b + 2 ^ 192) 192 :=
    format_int_neg_wrap b 192 (by norm_num) (by norm_num) (by norm_num at hb1 ⊢; exact hb1) hb2
  obtain ⟨br, hbr⟩ := Option.isSome_iff_exists.mp hr
  obtain ⟨bc, hbc⟩ := Option.isSome_iff_exists.mp hc
  obtain ⟨bbl, hbbl, _⟩ := format_int_ok_of_range bl 32 (by norm_num) (by norm_num)
    (le_trans (by norm_num) hbl) hbl32
  obtain ⟨bb, hbb, _⟩ := format_int_ok_of_range b 192 (by norm_num) (by norm_num)
    (by norm_num at hb1 ⊢; exact hb1) (lt_trans hb2 (by positivity))
  have henc : encodeArg (Sha3Arg.tuple bl 32) = some bbl := hbbl
  have henc2 : encodeArg (Sha3Arg.tuple b 192) = some bb := hbb
  constructor
  · rw [balance_message_hash]
    simp only [sha3Msg_cons, hbr, hbc, henc, henc2, Option.some_bind,
      Option.isSome_map]
    rfl
  · rw [balance_message_hash, balance_message_hash]
    have harg : encodeArg (Sha3Arg.tuple b 192) =
        encodeArg (Sha3Arg.tuple (b + 2 ^ 192) 192) := heq
    simp only [sha3Msg_cons, harg]

/-- C5, witness: concrete channel parameters with balance `-1`: the hash
succeeds and equals the hash at `2^192 - 1`. -/
theorem claim_C5_witness :
    ((encodeArg (Sha3Arg.str "0xaabbccddeeff00112233445566778899aabbccdd")).isSome = true ∧
        (0 : Int) ≤ 5 ∧ (5 : Int) < 2 ^ 32 ∧ -(2 : Int) ^ 191 ≤ -1 ∧ (-1 : Int) < 0) ∧
      ((balance_message_hash toyCrypto "0xaabbccddeeff00112233445566778899aabbccdd" 5 (-1)
          "0x1122334455667788990011223344556677889900").isSome = true ∧
        balance_message_hash toyCrypto "0xaabbccddeeff00112233445566778899aabbccdd" 5 (-1)
            "0x1122334455667788990011223344556677889900" =
          balance_message_hash toyCrypto "0xaabbccddeeff00112233445566778899aabbccdd" 5 (-1 + 2 ^ 192)
            "0x1122334455667788990011223344556677889900") :=
  ⟨by decide,
    claim_C5 toyCrypto "0xaabbccddeeff00112233445566778899aabbccdd"
      "0x1122334455667788990011223344556677889900" 5 (-1)
      (by decide) (by decide) (by decide) (by decide) (by decide) (by decide)⟩

/-- C6: replacing a canonical recovery id `v ∈ {0, 1}` in the last byte of a
65-byte signature with the legacy `v + 27` recovers exactly the same result —
`addr_from_sig` normalizes any last byte ≥ 27 by subtracting 27 before
recovery. -/
theorem claim_C6 (C : Crypto) (sig msg : List Nat) (v : Nat)
    (h65 : sig.length = 65) (hlast : sig.getLast? = some v) (hv : v ≤ 1) :
    addr_from_sig C (sig.dropLast ++ [v + 27]) msg = addr_from_sig C sig msg := by
  have h27 : 27 ≤ v + 27 := by omega
  have hn27 : ¬ 27 ≤ v := by omega
  simp only [addr_from_sig, hlast, List.getLast?_concat, if_pos h27, if_neg hn27,
    List.dropLast_concat]
  rw [show v + 27 - 27 = v by omega, List.dropLast_append_getLast? v hlast]

/-- C6, witness: a concrete 65-byte signature with recovery id 1 against the
toy primitives. -/
theorem claim_C6_witness :
    ((List.replicate 64 9 ++ [1] : List Nat).length = 65 ∧
        (List.replicate 64 9 ++ [1] : List Nat).getLast? = some 1) ∧
      addr_from_sig toyCrypto ((List.replicate 64 9 ++ [1] : List Nat).dropLast ++ [1 + 27])
          (List.replicate 32 0) =
        addr_from_sig toyCrypto (List.replicate 64 9 ++ [1]) (List.replicate 32 0) :=
  ⟨by decide,
    claim_C6 toyCrypto (List.replicate 64 9 ++ [1]) (List.replicate 32 0) 1
      (by decide) (by decide) (by decide)⟩

/-- C10: `privkey_to_addr` strips an optional `0x` prefix before parsing, so
a 64-hex-digit private key string derives the same address with or without
the prefix (a hex string never itself starts with `0x`). -/
theorem claim_C10 (C : Crypto) (h : String)
    (hlen : h.data.length = 64)
    (hhex : ∀ c ∈ h.data, isHexDigitChar c = true) :
    privkey_to_addr C ("0x" ++ h) = privkey_to_addr C h := by
  have h1 : remove0x ("0x" ++ h) = h := by
    rw [remove0x]
    show String.mk (strip0xChars ('0' :: 'x' :: h.data)) = h
    rw [strip0xChars, if_pos ⟨rfl, Or.inl rfl⟩]
  have h2 : remove0x h = h := by
    rw [remove0x, strip0xChars_eq_self_of_hex h.data hhex]
  rw [privkey_to_addr, privkey_to_addr, h1, h2]

/-- C10, witness: a concrete valid 64-digit key (value 1) with and without
the prefix, against the toy primitives. -/
theorem claim_C10_witness :
    ((String.mk (List.replicate 63 '0' ++ ['1'])).data.length = 64) ∧
      privkey_to_addr toyCrypto ("0x" ++ String.mk (List.replicate 63 '0' ++ ['1'])) =
        privkey_to_addr toyCrypto (String.mk (List.replicate 63 '0' ++ ['1'])) :=
  ⟨by decide,
    claim_C10 toyCrypto (String.mk (List.replicate 63 '0' ++ ['1']))
      (by decide) (by decide)⟩

/-! ### Claims C1, C2: signing round trips -/

/-- Under the signing contracts (valid key, 32-byte digest, 65-byte
signature, recovery id below 27), the `chr(...).encode()` splice in `sign`
is the identity, so `sign` returns the raw recoverable signature. -/
theorem sign_eq_of_contracts (C : Crypto) (k : String) (m sk : List Nat) (v : Nat)
    (hk : privkeyFromHex (remove0x k) = some sk) (hm : m.length = 32)
    (hlen : (C.signRecoverable sk m).length = 65)
    (hgl : (C.signRecoverable sk m).getLast? = some v) (hv : v < 128) :
    sign C k m = some (C.signRecoverable sk m) := by
  simp only [sign, hk, hgl, if_pos hm, if_pos hlen]
  rw [utf8EncodeCharNat, if_pos hv, List.dropLast_append_getLast? v hgl]

/-- Signing a 32-byte digest and recovering the address from the result
yields the key's own address, given the curve primitives' round-trip
contract. -/
theorem sign_then_recover (C : Crypto) (k : String) (m sk : List Nat)
    (hk : privkeyFromHex (remove0x k) = some sk) (hm : m.length = 32)
    (hlen : (C.signRecoverable sk m).length = 65)
    (hv : ∃ v, (C.signRecoverable sk m).getLast? = some v ∧ v < 27)
    (hround : C.recoverPubkey (C.signRecoverable sk m) m = some (C.privToPub sk)) :
    (sign C k m).bind (fun s => addr_from_sig C s m) = privkey_to_addr C k := by
  obtain ⟨v, hgl, hv27⟩ := hv
  rw [sign_eq_of_contracts C k m sk v hk hm hlen hgl (by omega), Option.some_bind,
    addr_from_sig]
  simp only [hgl, if_neg (show ¬ 27 ≤ v by omega), hround]
  rw [privkey_to_addr, hk]
  rfl

/-- C2: for every valid private key and 32-byte digest, recovering from the
produced signature returns the key's own address — assuming the secp256k1
primitives' contracts (65-byte signature, canonical recovery id, public-key
recovery round trip), which the external library provides. -/
theorem claim_C2 (C : Crypto) (k : String) (m sk : List Nat)
    (hk : privkeyFromHex (remove0x k) = some sk) (hm : m.length = 32)
    (hlen : (C.signRecoverable sk m).length = 65)
    (hv : ∃ v, (C.signRecoverable sk m).getLast? = some v ∧ v < 27)
    (hround : C.recoverPubkey (C.signRecoverable sk m) m = some (C.privToPub sk)) :
    (sign C k m).bind (fun s => addr_from_sig C s m) = privkey_to_addr C k :=
  sign_then_recover C k m sk hk hm hlen hv hround

/-- C2, witness: the toy primitives, the valid key 0…01 and a concrete
32-byte digest. -/
theorem claim_C2_witness :
    (privkeyFromHex (remove0x (String.mk (List.replicate 63 '0' ++ ['1']))) =
        some (List.replicate 31 0 ++ [1]) ∧
      (List.replicate 32 7 : List Nat).length = 32) ∧
      (sign toyCrypto (String.mk (List.replicate 63 '0' ++ ['1'])) (List.replicate 32 7)).bind
          (fun s => addr_from_sig toyCrypto s (List.replicate 32 7)) =
        privkey_to_addr toyCrypto (String.mk (List.replicate 63 '0' ++ ['1'])) :=
  ⟨by decide,
    claim_C2 toyCrypto (String.mk (List.replicate 63 '0' ++ ['1']))
      (List.replicate 32 7) (List.replicate 31 0 ++ [1])
      (by decide) (by decide) (by decide) ⟨0, by decide, by decide⟩ (by decide)⟩

/-- C1: the balance-proof round trip — verifying a freshly signed balance
proof recovers the signer's own address, for every receiver, open block
number, balance and contract address whose message hash succeeds, assuming
the secp256k1 primitives' contracts on the 32-byte digest. -/
theorem claim_C1 (C : Crypto) (k r ca : String) (bl b : Int) (sk d : List Nat)
    (hk : privkeyFromHex (remove0x k) = some sk)
    (hmsg : balance_message_hash C r bl b ca = some d)
    (hd : d.length = 32)
    (hlen : (C.signRecoverable sk d).length = 65)
    (hv : ∃ v, (C.signRecoverable sk d).getLast? = some v ∧ v < 27)
    (hround : C.recoverPubkey (C.signRecoverable sk d) d = some (C.privToPub sk)) :
    (sign_balance_proof C k r bl b ca).bind
        (fun s => verify_balance_proof C r bl b s ca) =
      privkey_to_addr C k := by
  rw [sign_balance_proof, hmsg, Option.some_bind]
  have hver : ∀ s, verify_balance_proof C r bl b s ca = addr_from_sig C s d := by
    intro s
    rw [verify_balance_proof, hmsg, Option.some_bind]
  simp only [hver]
  exact sign_then_recover C k d sk hk hd hlen hv hround

/-- C1, witness: the toy primitives with concrete channel parameters; the
digest is the toy keccak of the packed message. -/
theorem claim_C1_witness :
    (privkeyFromHex (remove0x (String.mk (List.replicate 63 '0' ++ ['1']))) =
        some (List.replicate 31 0 ++ [1]) ∧
      balance_message_hash toyCrypto "0xaabbccddeeff00112233445566778899aabbccdd" 5 100
          "0x1122334455667788990011223344556677889900" = some (List.replicate 32 105)) ∧
      (sign_balance_proof toyCrypto (String.mk (List.replicate 63 '0' ++ ['1']))
            "0xaabbccddeeff00112233445566778899aabbccdd" 5 100
            "0x1122334455667788990011223344556677889900").bind
          (fun s => verify_balance_proof toyCrypto "0xaabbccddeeff00112233445566778899aabbccdd"
            5 100 s "0x1122334455667788990011223344556677889900") =
        privkey_to_addr toyCrypto (String.mk (List.replicate 63 '0' ++ ['1'])) :=
  ⟨by decide,
    claim_C1 toyCrypto (String.mk (List.replicate 63 '0' ++ ['1']))
      "0xaabbccddeeff00112233445566778899aabbccdd"
      "0x1122334455667788990011223344556677889900" 5 100
      (List.replicate 31 0 ++ [1]) (List.replicate 32 105)
      (by decide) (by decide) (by decide) (by decide) ⟨0, by decide, by decide⟩ (by decide)⟩

/-! ### Claim C9: address comparison is case- and prefix-insensitive -/

theorem to_normalized_address_of_core (s : String) (core : List Char)
    (hstrip : strip0xChars s.data = core)
    (hlen : core.length = 40)
    (hhex : ∀ c ∈ core, isHexDigitChar c = true) :
    to_normalized_address s = some ⟨'0' :: 'x' :: core.map asciiLowerChar⟩ := by
  rw [to_normalized_address]
  simp only [hstrip]
  rw [if_pos]
  refine ⟨by simpa using hlen, ?_⟩
  rw [List.all_eq_true]
  intro c hc
  obtain ⟨d, hd, rfl⟩ := List.mem_map.mp hc
  exact asciiLowerChar_hex d (hhex d hd)

/-- C9: for a valid `0x`-prefixed 40-hex-digit address, comparison is
insensitive to upper-casing the whole string (including the prefix becoming
`0X`) and to removing the `0x` prefix. -/
theorem claim_C9 (a : String) (core : List Char)
    (hdata : a.data = '0' :: 'x' :: core)
    (hlen : core.length = 40)
    (hhex : ∀ c ∈ core, isHexDigitChar c = true) :
    equal_addrs a (pyUpper a) = some true ∧
      equal_addrs a (remove0x a) = some true := by
  have hstrip : strip0xChars a.data = core := by
    rw [hdata, strip0xChars, if_pos ⟨rfl, Or.inl rfl⟩]
  have hna := to_normalized_address_of_core a core hstrip hlen hhex
  have hup_data : (pyUpper a).data = '0' :: 'X' :: core.map asciiUpperChar := by
    show a.data.map asciiUpperChar = _
    rw [hdata]
    rfl
  have hup_strip : strip0xChars (pyUpper a).data = core.map asciiUpperChar := by
    rw [hup_data, strip0xChars, if_pos ⟨rfl, Or.inr rfl⟩]
  have hup_hex : ∀ c ∈ core.map asciiUpperChar, isHexDigitChar c = true := by
    intro c hc
    obtain ⟨d, hd, rfl⟩ := List.mem_map.mp hc
    have hdhex := hhex d hd
    rw [isHexDigitChar_iff] at hdhex ⊢
    rcases hdhex with h | h | h
    · rw [asciiUpperChar, if_neg (by omega)]
      omega
    · rw [asciiUpperChar, if_pos (by omega), charToNat_ofNat _ (by omega)]
      omega
    · rw [asciiUpperChar, if_neg (by omega)]
      omega
  have hnb := to_normalized_address_of_core (pyUpper a) (core.map asciiUpperChar)
    hup_strip (by simpa using hlen) hup_hex
  have hmapeq : (core.map asciiUpperChar).map asciiLowerChar = core.map asciiLowerChar := by
    rw [List.map_map]
    exact List.map_eq_map_iff.mpr (fun c hc => asciiLower_asciiUpper_of_hex c (hhex c hc))
  rw [hmapeq] at hnb
  have hrm_strip : strip0xChars (remove0x a).data = core := by
    show strip0xChars (strip0xChars a.data) = core
    rw [hstrip]
    exact strip0xChars_eq_self_of_hex core hhex
  have hnc := to_normalized_address_of_core (remove0x a) core hrm_strip hlen hhex
  constructor
  · rw [equal_addrs, hna, hnb]
    simp
  · rw [equal_addrs, hna, hnc]
    simp

/-- C9, witness: a concrete mixed-case prefixed address compared with its
upper-cased and prefix-stripped forms. -/
theorem claim_C9_witness :
    (("0xAaBbCcDdEeFf00112233445566778899aAbBcCdD" : String).data =
        '0' :: 'x' :: ("AaBbCcDdEeFf00112233445566778899aAbBcCdD" : String).data ∧
      ("AaBbCcDdEeFf00112233445566778899aAbBcCdD" : String).data.length = 40) ∧
      (equal_addrs "0xAaBbCcDdEeFf00112233445566778899aAbBcCdD"
          (pyUpper "0xAaBbCcDdEeFf00112233445566778899aAbBcCdD") = some true ∧
        equal_addrs "0xAaBbCcDdEeFf00112233445566778899aAbBcCdD"
          (remove0x "0xAaBbCcDdEeFf00112233445566778899aAbBcCdD") = some true) :=
  ⟨by decide,
    claim_C9 "0xAaBbCcDdEeFf00112233445566778899aAbBcCdD"
      ("AaBbCcDdEeFf00112233445566778899aAbBcCdD" : String).data
      (by decide) (by decide) (by decide)⟩

end Microraiden
